import Mathlib

/-!
Verification of the MFEM parallel subdomain DOF-mapping layer and the
matrix-free tensor-product / flux-corrected-transport kernels, as a shallow
embedding in Lean 4.  Integers of the C++ code are modelled by `ℕ`/`ℤ`,
`double` values by `ℚ` (exact arithmetic).
-/

set_option maxHeartbeats 1000000

namespace Mfem

/-! ## Global index resolver: `get_rank` (DofMapsDST.cpp, lines 10-17)

`std::upper_bound` is used on the sorted offset table; by its C++ standard
contract it returns the position of the first element strictly greater than
the probed value (the end position when there is none).  We embed that
contract directly: the length of the longest prefix of elements `≤ tdof`. -/

/-- Position of the first element of `offsets` strictly greater than `tdof`
(`offsets.length` when none), the contract of `std::upper_bound` on a
partitioned range. -/
def upper_bound (offsets : List ℤ) (tdof : ℤ) : ℕ :=
  (offsets.takeWhile (fun t => decide (t ≤ tdof))).length

/-- Embedding of `get_rank` (DofMapsDST.cpp): a one-entry table returns rank 0
unconditionally, otherwise the `upper_bound` position minus one. -/
def get_rank (tdof : ℤ) (tdof_offsets : List ℤ) : ℤ :=
  if tdof_offsets.length = 1 then 0
  else (upper_bound tdof_offsets tdof : ℤ) - 1

theorem upper_bound_le_length (T : List ℤ) (d : ℤ) : upper_bound T d ≤ T.length := by
  unfold upper_bound
  induction T with
  | nil => simp
  | cons t ts ih =>
    by_cases h : t ≤ d
    · simpa [List.takeWhile, h] using Nat.succ_le_succ ih
    · simp [List.takeWhile, h]

theorem upper_bound_lt_imp (T : List ℤ) (d : ℤ) (i : ℕ) (h : i < upper_bound T d) :
    ∃ hi : i < T.length, T.get ⟨i, hi⟩ ≤ d := by
  induction T generalizing i with
  | nil => simp [upper_bound] at h
  | cons t ts ih =>
    by_cases ht : t ≤ d
    · cases i with
      | zero => exact ⟨by simp, ht⟩
      | succ n =>
        have h' : n < upper_bound ts d := by
          have := h
          simp only [upper_bound, List.takeWhile, ht, decide_True] at this
          simpa [upper_bound] using Nat.lt_of_succ_lt_succ this
        obtain ⟨hn, hle⟩ := ih n h'
        exact ⟨by simpa using Nat.succ_lt_succ hn, by simpa using hle⟩
    · simp [upper_bound, List.takeWhile, ht] at h

theorem upper_bound_ge_imp (T : List ℤ) (d : ℤ) (hs : T.Sorted (· ≤ ·))
    (i : ℕ) (hi : i < T.length) (h : upper_bound T d ≤ i) : d < T.get ⟨i, hi⟩ := by
  induction T generalizing i with
  | nil => simp at hi
  | cons t ts ih =>
    have hs' : ts.Sorted (· ≤ ·) := hs.of_cons
    by_cases ht : t ≤ d
    · cases i with
      | zero =>
        exfalso
        simp [upper_bound, List.takeWhile, ht] at h
      | succ n =>
        have h' : upper_bound ts d ≤ n := by
          simp only [upper_bound, List.takeWhile, ht, decide_True] at h
          simpa [upper_bound] using Nat.le_of_succ_le_succ h
        simpa using ih hs' n (by simpa using Nat.lt_of_succ_lt_succ hi) h'
    · push_neg at ht
      cases i with
      | zero => simpa using ht
      | succ n =>
        have hmem : ts.get ⟨n, by simpa using Nat.lt_of_succ_lt_succ hi⟩ ∈ ts :=
          List.get_mem _ _ _
        have : t ≤ ts.get ⟨n, by simpa using Nat.lt_of_succ_lt_succ hi⟩ :=
          (List.sorted_cons.mp hs).1 _ hmem
        calc d < t := ht
        _ ≤ _ := this

/-- C4: for a sorted offset table containing some entry `≤ d`, `get_rank`
returns the `upper_bound` position minus one, which is the largest index `p`
with `T[p] ≤ d`; a one-entry table yields rank 0 unconditionally. -/
theorem get_rank_spec (d : ℤ) (T : List ℤ) (hs : T.Sorted (· ≤ ·))
    (h0 : ∃ t ∈ T, t ≤ d) :
    get_rank d T = (upper_bound T d : ℤ) - 1 ∧
    IsGreatest {p : ℕ | ∃ hp : p < T.length, T.get ⟨p, hp⟩ ≤ d}
      (upper_bound T d - 1) ∧
    (T.length = 1 → get_rank d T = 0) := by
  obtain ⟨t, htm, htd⟩ := h0
  obtain ⟨⟨it, hit⟩, rfl⟩ := List.mem_iff_get.mp htm
  have hu_pos : 0 < upper_bound T d := by
    by_contra hc
    push_neg at hc
    interval_cases hu : upper_bound T d
    · exact absurd (upper_bound_ge_imp T d hs it hit (by omega)) (not_lt.mpr htd)
  have hu_len : upper_bound T d ≤ T.length := upper_bound_le_length T d
  refine ⟨?_, ⟨?_, ?_⟩, ?_⟩
  · unfold get_rank
    split
    · next hlen =>
      have h1 : upper_bound T d = 1 := by omega
      simp [h1]
    · rfl
  · exact upper_bound_lt_imp T d _ (by omega)
  · rintro p ⟨hp, hple⟩
    by_contra hc
    push_neg at hc
    have : upper_bound T d ≤ p := by omega
    exact absurd (upper_bound_ge_imp T d hs p hp this) (not_lt.mpr hple)
  · intro hlen
    simp [get_rank, hlen]

/-- Witness for C4 at the table `[0, 4, 9]` and index `5`. -/
theorem get_rank_spec_witness :
    (List.Sorted (· ≤ ·) [(0 : ℤ), 4, 9] ∧ ∃ t ∈ [(0 : ℤ), 4, 9], t ≤ 5) ∧
    (get_rank 5 [0, 4, 9] = (upper_bound [0, 4, 9] 5 : ℤ) - 1 ∧
     IsGreatest {p : ℕ | ∃ hp : p < ([(0 : ℤ), 4, 9]).length,
        ([(0 : ℤ), 4, 9]).get ⟨p, hp⟩ ≤ 5} (upper_bound [0, 4, 9] 5 - 1) ∧
     (([(0 : ℤ), 4, 9]).length = 1 → get_rank 5 [0, 4, 9] = 0)) :=
  ⟨⟨by decide, by decide⟩, get_rank_spec 5 [0, 4, 9] (by decide) (by decide)⟩

/-! ## Kernel dispatch of `QuadratureInterpolator::Values<QVectorLayout::byVDIM>`
(quadinterpolator_byvdim_eval.cpp, lines 228-287) -/

/-- Outcome of the dispatch in `Values<byVDIM>`: a compile-time specialized
fast-path kernel, the generic fallback kernel, a silent fall-through for a
dimension that is neither 2 nor 3, or a fatal abort (`MFEM_VERIFY` failure). -/
inductive EvalKernel where
  | fast2D (vdim d1d q1d nbz : ℕ)
  | fast3D (vdim d1d q1d : ℕ)
  | generic2D (md1 mq1 : ℕ)
  | generic3D (md1 mq1 : ℕ)
  | fallthrough
  | fatal (msg : String)
deriving DecidableEq

/-- The dispatch key `(dim<<12) | (vdim<<8) | (D1D<<4) | Q1D`. -/
def valuesId (dim vdim d1d q1d : ℕ) : ℕ :=
  (dim <<< 12) ||| (vdim <<< 8) ||| (d1d <<< 4) ||| q1d

/-- The dispatch keys of the thirteen compile-time specialized kernels. -/
def specializedIds : List ℕ :=
  [0x2124, 0x2136, 0x2148, 0x2224, 0x2234, 0x2236, 0x2248,
   0x3124, 0x3136, 0x3148, 0x3324, 0x3336, 0x3348]

/-- The `switch (id)` statement of `Values<byVDIM>`: thirteen specialized
cases, then the default branch with its two `MFEM_VERIFY` guards
(`D1D <= 8`, `Q1D <= 8`) followed by the generic 2D/3D kernels. -/
def valuesSwitch (id dim d1d q1d : ℕ) : EvalKernel :=
  if id = 0x2124 then .fast2D 1 2 4 8
  else if id = 0x2136 then .fast2D 1 3 6 4
  else if id = 0x2148 then .fast2D 1 4 8 2
  else if id = 0x2224 then .fast2D 2 2 4 8
  else if id = 0x2234 then .fast2D 2 3 4 8
  else if id = 0x2236 then .fast2D 2 3 6 4
  else if id = 0x2248 then .fast2D 2 4 8 2
  else if id = 0x3124 then .fast3D 1 2 4
  else if id = 0x3136 then .fast3D 1 3 6
  else if id = 0x3148 then .fast3D 1 4 8
  else if id = 0x3324 then .fast3D 3 2 4
  else if id = 0x3336 then .fast3D 3 3 6
  else if id = 0x3348 then .fast3D 3 4 8
  else if 8 < d1d then .fatal "Orders higher than 7 are not supported!"
  else if 8 < q1d then .fatal "Quadrature rules with more than 8 1D points are not supported!"
  else if dim = 2 then .generic2D 8 8
  else if dim = 3 then .generic3D 8 8
  else .fallthrough

/-- Embedding of the dispatch of `Values<byVDIM>`: compute the key
`id = (dim<<12) | (vdim<<8) | (D1D<<4) | Q1D` and run the switch. -/
def ValuesByVDim (dim vdim d1d q1d : ℕ) : EvalKernel :=
  valuesSwitch (valuesId dim vdim d1d q1d) dim d1d q1d

theorem valuesSwitch_fallback (id dim d1d q1d : ℕ)
    (hdim : dim = 2 ∨ dim = 3) (hd : d1d ≤ 8) (hq : q1d ≤ 8) :
    (∀ s, valuesSwitch id dim d1d q1d ≠ .fatal s) ∧
    (id ∉ specializedIds →
      valuesSwitch id dim d1d q1d =
        if dim = 2 then .generic2D 8 8 else .generic3D 8 8) := by
  constructor
  · intro s
    by_cases hm : id ∈ specializedIds
    · simp only [specializedIds, List.mem_cons, List.not_mem_nil, or_false] at hm
      rcases hm with rfl | rfl | rfl | rfl | rfl | rfl | rfl | rfl | rfl | rfl | rfl | rfl | rfl <;>
        simp [valuesSwitch]
    · simp only [specializedIds, List.mem_cons, List.not_mem_nil, or_false, not_or] at hm
      obtain ⟨h1, h2, h3, h4, h5, h6, h7, h8, h9, h10, h11, h12, h13⟩ := hm
      unfold valuesSwitch
      rw [if_neg h1, if_neg h2, if_neg h3, if_neg h4, if_neg h5, if_neg h6,
          if_neg h7, if_neg h8, if_neg h9, if_neg h10, if_neg h11, if_neg h12,
          if_neg h13, if_neg (show ¬ 8 < d1d from not_lt.mpr hd),
          if_neg (show ¬ 8 < q1d from not_lt.mpr hq)]
      rcases hdim with h | h <;> simp [h]
  · intro hns
    simp only [specializedIds, List.mem_cons, List.not_mem_nil, or_false, not_or] at hns
    obtain ⟨h1, h2, h3, h4, h5, h6, h7, h8, h9, h10, h11, h12, h13⟩ := hns
    unfold valuesSwitch
    rw [if_neg h1, if_neg h2, if_neg h3, if_neg h4, if_neg h5, if_neg h6,
        if_neg h7, if_neg h8, if_neg h9, if_neg h10, if_neg h11, if_neg h12,
        if_neg h13, if_neg (show ¬ 8 < d1d from not_lt.mpr hd),
        if_neg (show ¬ 8 < q1d from not_lt.mpr hq)]
    rcases hdim with h | h
    · rw [if_pos h, if_pos h]
    · have h2ne : dim ≠ 2 := by omega
      rw [if_neg h2ne, if_pos h, if_neg h2ne]

/-- C8 counterexample: the pair `dim=2, vdim=1, D1D=9, Q1D=10` is not covered
by any specialized fast-path case, yet the run aborts (the `MFEM_VERIFY` in
the default branch fails) instead of being handled by the fallback kernel. -/
theorem valuesByVDim_abort_counterexample :
    valuesId 2 1 9 10 ∉ specializedIds ∧
    ValuesByVDim 2 1 9 10 = .fatal "Orders higher than 7 are not supported!" := by
  constructor
  · decide
  · rfl

/-- C8 (amended): for `dim ∈ {2,3}`, `D1D ≤ 8` and `Q1D ≤ 8` the dispatch
never aborts, and every such combination not covered by a specialized
fast-path case is handled by the generic fallback kernel of the matching
dimension; combinations with `D1D > 8` or `Q1D > 8` abort instead. -/
theorem valuesByVDim_fallback (dim vdim d1d q1d : ℕ)
    (hdim : dim = 2 ∨ dim = 3) (hd : d1d ≤ 8) (hq : q1d ≤ 8) :
    (∀ s, ValuesByVDim dim vdim d1d q1d ≠ .fatal s) ∧
    (valuesId dim vdim d1d q1d ∉ specializedIds →
      ValuesByVDim dim vdim d1d q1d =
        if dim = 2 then .generic2D 8 8 else .generic3D 8 8) :=
  valuesSwitch_fallback (valuesId dim vdim d1d q1d) dim d1d q1d hdim hd hq

/-- Witness for C8 at `dim=2, vdim=5, D1D=5, Q1D=5` (not specialized). -/
theorem valuesByVDim_fallback_witness :
    ((2 = 2 ∨ 2 = 3) ∧ 5 ≤ 8 ∧ 5 ≤ 8) ∧
    ((∀ s, ValuesByVDim 2 5 5 5 ≠ .fatal s) ∧
     (valuesId 2 5 5 5 ∉ specializedIds →
       ValuesByVDim 2 5 5 5 = if 2 = 2 then .generic2D 8 8 else .generic3D 8 8)) :=
  ⟨⟨Or.inl rfl, by decide, by decide⟩,
   valuesByVDim_fallback 2 5 5 5 (Or.inl rfl) (by decide) (by decide)⟩

/-! ## Sum-factorized evaluation kernels `EvalByVDim2D` / `EvalByVDim3D`
(quadinterpolator_byvdim_eval.cpp, lines 25-112 and 116-226)

Per element `e` and component `c` the kernel contracts one reference axis at
a time through scratch tensors (`DQ`, `DDQ`, `DQQ`); we embed the value each
scratch slot holds after its synchronization barrier. -/

/-- Scratch tensor `DQ(dy,qx)` of `EvalByVDim2D`: contraction of the x-axis. -/
def evalDQ (D1D : ℕ) (b : ℕ → ℕ → ℚ) (x : ℕ → ℕ → ℕ → ℕ → ℚ)
    (c e dy qx : ℕ) : ℚ :=
  ∑ dx ∈ Finset.range D1D, b qx dx * x dx dy c e

/-- Output `y(c,qx,qy,e)` of `EvalByVDim2D`: contraction of the y-axis
applied to the scratch tensor `DQ`. -/
def EvalByVDim2D (D1D : ℕ) (b : ℕ → ℕ → ℚ) (x : ℕ → ℕ → ℕ → ℕ → ℚ)
    (c qx qy e : ℕ) : ℚ :=
  ∑ dy ∈ Finset.range D1D, evalDQ D1D b x c e dy qx * b qy dy

/-- Dense (unfactorized) 2D tensor-product interpolation: the reference
contraction `∑ dx dy, b(qx,dx) b(qy,dy) x(dx,dy,c,e)`. -/
def dense2D (D1D : ℕ) (b : ℕ → ℕ → ℚ) (x : ℕ → ℕ → ℕ → ℕ → ℚ)
    (c qx qy e : ℕ) : ℚ :=
  ∑ dx ∈ Finset.range D1D, ∑ dy ∈ Finset.range D1D,
    b qx dx * b qy dy * x dx dy c e

/-- Scratch tensor `DDQ(dz,dy,qx)` of `EvalByVDim3D`. -/
def evalDDQ (D1D : ℕ) (b : ℕ → ℕ → ℚ) (x : ℕ → ℕ → ℕ → ℕ → ℕ → ℚ)
    (c e dz dy qx : ℕ) : ℚ :=
  ∑ dx ∈ Finset.range D1D, b qx dx * x dx dy dz c e

/-- Scratch tensor `DQQ(dz,qy,qx)` of `EvalByVDim3D`. -/
def evalDQQ (D1D : ℕ) (b : ℕ → ℕ → ℚ) (x : ℕ → ℕ → ℕ → ℕ → ℕ → ℚ)
    (c e dz qy qx : ℕ) : ℚ :=
  ∑ dy ∈ Finset.range D1D, evalDDQ D1D b x c e dz dy qx * b qy dy

/-- Output `y(c,qx,qy,qz,e)` of `EvalByVDim3D`. -/
def EvalByVDim3D (D1D : ℕ) (b : ℕ → ℕ → ℚ) (x : ℕ → ℕ → ℕ → ℕ → ℕ → ℚ)
    (c qx qy qz e : ℕ) : ℚ :=
  ∑ dz ∈ Finset.range D1D, evalDQQ D1D b x c e dz qy qx * b qz dz

/-- Dense (unfactorized) 3D tensor-product interpolation. -/
def dense3D (D1D : ℕ) (b : ℕ → ℕ → ℚ) (x : ℕ → ℕ → ℕ → ℕ → ℕ → ℚ)
    (c qx qy qz e : ℕ) : ℚ :=
  ∑ dx ∈ Finset.range D1D, ∑ dy ∈ Finset.range D1D, ∑ dz ∈ Finset.range D1D,
    b qx dx * b qy dy * b qz dz * x dx dy dz c e

theorem sum3_rotate (n : ℕ) (f : ℕ → ℕ → ℕ → ℚ) :
    (∑ a ∈ Finset.range n, ∑ b ∈ Finset.range n, ∑ c ∈ Finset.range n, f a b c) =
    ∑ c ∈ Finset.range n, ∑ b ∈ Finset.range n, ∑ a ∈ Finset.range n, f a b c :=
  calc
    (∑ a ∈ Finset.range n, ∑ b ∈ Finset.range n, ∑ c ∈ Finset.range n, f a b c)
        = ∑ b ∈ Finset.range n, ∑ a ∈ Finset.range n, ∑ c ∈ Finset.range n, f a b c :=
      Finset.sum_comm
    _ = ∑ b ∈ Finset.range n, ∑ c ∈ Finset.range n, ∑ a ∈ Finset.range n, f a b c :=
      Finset.sum_congr rfl fun b _ => Finset.sum_comm
    _ = ∑ c ∈ Finset.range n, ∑ b ∈ Finset.range n, ∑ a ∈ Finset.range n, f a b c :=
      Finset.sum_comm

/-- C7: the sum-factorized kernels agree with the dense reference
contraction, in 2D and in 3D, for every element, component and quadrature
point. -/
theorem evalByVDim_eq_dense (D1D : ℕ) (b : ℕ → ℕ → ℚ)
    (x2 : ℕ → ℕ → ℕ → ℕ → ℚ) (x3 : ℕ → ℕ → ℕ → ℕ → ℕ → ℚ)
    (c qx qy qz e : ℕ) :
    EvalByVDim2D D1D b x2 c qx qy e = dense2D D1D b x2 c qx qy e ∧
    EvalByVDim3D D1D b x3 c qx qy qz e = dense3D D1D b x3 c qx qy qz e := by
  constructor
  · simp only [EvalByVDim2D, evalDQ, dense2D, Finset.sum_mul]
    rw [Finset.sum_comm]
    exact Finset.sum_congr rfl fun dx _ => Finset.sum_congr rfl fun dy _ => by ring
  · simp only [EvalByVDim3D, evalDQQ, evalDDQ, dense3D, Finset.sum_mul]
    rw [sum3_rotate]
    exact Finset.sum_congr rfl fun dx _ => Finset.sum_congr rfl fun dy _ =>
      Finset.sum_congr rfl fun dz _ => by ring

/-! ## Overlap region builder (DofMapsDST.cpp: `GetDirectionId` line 52,
`AddElementToOvlpLists` lines 112-143, `ComputeOvlpElems` lines 145-192)

The `Array<bool> neg(dim)`, `pos(dim)` flag arrays are modelled as
`List Bool` of length `dim`. -/

/-- Embedding of `GetDirectionId` for a size-3 direction array:
`(k+1)*9 + (j+1)*3 + (i+1)`. -/
def GetDirectionIdZ (i j k : ℤ) : ℤ :=
  (k + 1) * 9 + (j + 1) * 3 + (i + 1)

/-- The `neg[d]` flag of `ComputeOvlpElems`: the subdomain is not the first
along axis `d` and the element centroid is within `h*nlayers` of the bounding
box minimum. -/
def negFlag (ijk : ℕ → ℤ) (center pmin : ℕ → ℚ) (h : ℚ) (nlayers : ℤ)
    (d : ℕ) : Bool :=
  decide (0 < ijk d) && decide (center d < pmin d + h * (nlayers : ℚ))

/-- The `pos[d]` flag of `ComputeOvlpElems`: the subdomain is not the last
along axis `d` and the centroid is within `h*nlayers` of the bounding box
maximum. -/
def posFlag (ijk nxyz : ℕ → ℤ) (center pmax : ℕ → ℚ) (h : ℚ) (nlayers : ℤ)
    (d : ℕ) : Bool :=
  decide (ijk d < nxyz d - 1) && decide (pmax d - h * (nlayers : ℚ) < center d)

/-- Embedding of `AddElementToOvlpLists`: the list of direction ids whose
bucket receives the element, produced by the triple loop over `{-1,0,1}`
components with the `neg`/`pos` skip guards and the zero-direction skip. -/
def AddElementToOvlpLists (dim : ℕ) (neg pos : List Bool) : List ℤ :=
  (if dim = 2 then ([0] : List ℤ) else [-1, 0, 1]).flatMap fun k =>
    if dim = 3 ∧ k = -1 ∧ neg.getD 2 false = false then []
    else if dim = 3 ∧ k = 1 ∧ pos.getD 2 false = false then []
    else ([-1, 0, 1] : List ℤ).flatMap fun j =>
      if j = -1 ∧ neg.getD 1 false = false then []
      else if j = 1 ∧ pos.getD 1 false = false then []
      else ([-1, 0, 1] : List ℤ).flatMap fun i =>
        if i = -1 ∧ neg.getD 0 false = false then []
        else if i = 1 ∧ pos.getD 0 false = false then []
        else if i = 0 ∧ j = 0 ∧ k = 0 then []
        else [GetDirectionIdZ i j (if dim = 2 then -1 else k)]

theorem addElement_mem2 (n0 n1 p0 p1 : Bool) :
    (∀ i ∈ ({-1, 0, 1} : Finset ℤ), ∀ j ∈ ({-1, 0, 1} : Finset ℤ),
      (GetDirectionIdZ i j (-1) ∈ AddElementToOvlpLists 2 [n0, n1] [p0, p1] ↔
        (¬(i = 0 ∧ j = 0) ∧
         (i = -1 → n0 = true) ∧ (i = 1 → p0 = true) ∧
         (j = -1 → n1 = true) ∧ (j = 1 → p1 = true)))) ∧
    (∀ e ∈ AddElementToOvlpLists 2 [n0, n1] [p0, p1],
      ∃ i ∈ ({-1, 0, 1} : Finset ℤ), ∃ j ∈ ({-1, 0, 1} : Finset ℤ),
        e = GetDirectionIdZ i j (-1) ∧ ¬(i = 0 ∧ j = 0)) := by
  cases n0 <;> cases n1 <;> cases p0 <;> cases p1 <;> decide

theorem addElement_mem3 (n0 n1 n2 p0 p1 p2 : Bool) :
    (∀ i ∈ ({-1, 0, 1} : Finset ℤ), ∀ j ∈ ({-1, 0, 1} : Finset ℤ),
      ∀ k ∈ ({-1, 0, 1} : Finset ℤ),
      (GetDirectionIdZ i j k ∈
          AddElementToOvlpLists 3 [n0, n1, n2] [p0, p1, p2] ↔
        (¬(i = 0 ∧ j = 0 ∧ k = 0) ∧
         (i = -1 → n0 = true) ∧ (i = 1 → p0 = true) ∧
         (j = -1 → n1 = true) ∧ (j = 1 → p1 = true) ∧
         (k = -1 → n2 = true) ∧ (k = 1 → p2 = true)))) ∧
    (∀ e ∈ AddElementToOvlpLists 3 [n0, n1, n2] [p0, p1, p2],
      ∃ i ∈ ({-1, 0, 1} : Finset ℤ), ∃ j ∈ ({-1, 0, 1} : Finset ℤ),
        ∃ k ∈ ({-1, 0, 1} : Finset ℤ),
          e = GetDirectionIdZ i j k ∧ ¬(i = 0 ∧ j = 0 ∧ k = 0)) := by
  cases n0 <;> cases n1 <;> cases n2 <;> cases p0 <;> cases p1 <;> cases p2 <;> decide

/-- C6: in `ComputeOvlpElems`, `neg[d]` is set exactly when the subdomain is
not first along axis `d` and the centroid is within `h*nlayers` of the
bounding-box minimum (`pos[d]` symmetrically against the maximum when not
last), and the element is appended to the bucket of every non-zero direction
whose `-1` components all have `neg` set and whose `+1` components all have
`pos` set, and to no other bucket. -/
theorem computeOvlpElems_spec (dim : ℕ) (ijk nxyz : ℕ → ℤ)
    (center pmin pmax : ℕ → ℚ) (h : ℚ) (nlayers : ℤ) :
    (∀ d, negFlag ijk center pmin h nlayers d = true ↔
      (0 < ijk d ∧ center d < pmin d + h * (nlayers : ℚ))) ∧
    (∀ d, posFlag ijk nxyz center pmax h nlayers d = true ↔
      (ijk d < nxyz d - 1 ∧ pmax d - h * (nlayers : ℚ) < center d)) ∧
    (dim = 2 →
      (∀ i ∈ ({-1, 0, 1} : Finset ℤ), ∀ j ∈ ({-1, 0, 1} : Finset ℤ),
        (GetDirectionIdZ i j (-1) ∈ AddElementToOvlpLists 2
            ((List.range 2).map (negFlag ijk center pmin h nlayers))
            ((List.range 2).map (posFlag ijk nxyz center pmax h nlayers)) ↔
          (¬(i = 0 ∧ j = 0) ∧
           (i = -1 → negFlag ijk center pmin h nlayers 0 = true) ∧
           (i = 1 → posFlag ijk nxyz center pmax h nlayers 0 = true) ∧
           (j = -1 → negFlag ijk center pmin h nlayers 1 = true) ∧
           (j = 1 → posFlag ijk nxyz center pmax h nlayers 1 = true)))) ∧
      (∀ e ∈ AddElementToOvlpLists 2
          ((List.range 2).map (negFlag ijk center pmin h nlayers))
          ((List.range 2).map (posFlag ijk nxyz center pmax h nlayers)),
        ∃ i ∈ ({-1, 0, 1} : Finset ℤ), ∃ j ∈ ({-1, 0, 1} : Finset ℤ),
          e = GetDirectionIdZ i j (-1) ∧ ¬(i = 0 ∧ j = 0))) ∧
    (dim = 3 →
      (∀ i ∈ ({-1, 0, 1} : Finset ℤ), ∀ j ∈ ({-1, 0, 1} : Finset ℤ),
        ∀ k ∈ ({-1, 0, 1} : Finset ℤ),
        (GetDirectionIdZ i j k ∈ AddElementToOvlpLists 3
            ((List.range 3).map (negFlag ijk center pmin h nlayers))
            ((List.range 3).map (posFlag ijk nxyz center pmax h nlayers)) ↔
          (¬(i = 0 ∧ j = 0 ∧ k = 0) ∧
           (i = -1 → negFlag ijk center pmin h nlayers 0 = true) ∧
           (i = 1 → posFlag ijk nxyz center pmax h nlayers 0 = true) ∧
           (j = -1 → negFlag ijk center pmin h nlayers 1 = true) ∧
           (j = 1 → posFlag ijk nxyz center pmax h nlayers 1 = true) ∧
           (k = -1 → negFlag ijk center pmin h nlayers 2 = true) ∧
           (k = 1 → posFlag ijk nxyz center pmax h nlayers 2 = true)))) ∧
      (∀ e ∈ AddElementToOvlpLists 3
          ((List.range 3).map (negFlag ijk center pmin h nlayers))
          ((List.range 3).map (posFlag ijk nxyz center pmax h nlayers)),
        ∃ i ∈ ({-1, 0, 1} : Finset ℤ), ∃ j ∈ ({-1, 0, 1} : Finset ℤ),
          ∃ k ∈ ({-1, 0, 1} : Finset ℤ),
            e = GetDirectionIdZ i j k ∧ ¬(i = 0 ∧ j = 0 ∧ k = 0))) := by
  have hr2 : ∀ F : ℕ → Bool, (List.range 2).map F = [F 0, F 1] := by
    intro F
    simp [List.range_succ]
  have hr3 : ∀ F : ℕ → Bool, (List.range 3).map F = [F 0, F 1, F 2] := by
    intro F
    simp [List.range_succ]
  refine ⟨fun d => by simp [negFlag], fun d => by simp [posFlag], ?_, ?_⟩
  · intro _
    rw [hr2, hr2]
    exact addElement_mem2 _ _ _ _
  · intro _
    rw [hr3, hr3]
    exact addElement_mem3 _ _ _ _ _ _

/-! ## DOF-bridge Phase A reassembly (DofMapsDST.cpp,
`SubdomainToGlobalMapsSetup` step 4, lines 590-627)

The subdomain owner walks its elements' sign-encoded local dofs and writes
`SubdomainGTrueDofs[ip][edof] = global_tdofs[ip][k]` for a running counter
`k`.  The `MFEM_VERIFY(nrdof == global_tdofs[ip].Size(), ...)` guard at line
605 is commented out in the source, so a count mismatch is NOT caught: the
loop keeps reading past the end of `global_tdofs` (undefined behaviour in
C++; the out-of-range read is modelled by the default value 0). -/

/-- Sign-encoded element-local dof decoding: `dof >= 0 ? dof : -dof-1`. -/
def decodeDof (e : ℤ) : ℕ :=
  if 0 ≤ e then e.toNat else e.natAbs - 1

/-- Embedding of step 4 of `SubdomainToGlobalMapsSetup` for one subdomain:
`SubdomainGTrueDofs` of size `nrdof`, filled by walking the elements'
decoded dofs with a running read position into `global_tdofs`.  No dof-count
check is performed (the `MFEM_VERIFY` is commented out in the source). -/
def reassembleSubdomainGTrueDofs (nrdof : ℕ) (elem_dofs : List (List ℤ))
    (global_tdofs : List ℤ) : List ℤ :=
  ((elem_dofs.flatMap id).map decodeDof).foldl
    (fun st edof => (st.1.set edof (global_tdofs.getD st.2 0), st.2 + 1))
    (List.replicate nrdof 0, 0) |>.1

/-- C2 evidence: at a mismatched input (local true-dof count 2, but only one
reassembled global id) the reassembly still produces a value - reading the
missing id as garbage (modelled 0) - instead of aborting; the commented-out
`MFEM_VERIFY` would have rejected this input. -/
theorem reassemble_no_abort_on_mismatch :
    2 ≠ ([(7 : ℤ)]).length ∧
    reassembleSubdomainGTrueDofs 2 [[0, 1]] [7] = [7, 0] := by
  constructor
  · decide
  · rfl

/-! ## Flux-corrected-transport blending: `FE_Evolution::ComputeFCTSolution`
(ex9.cpp, lines 1914-1965)

The element loop is independent across elements; we embed the computation
for element `k` with `nd` dofs, `dofInd = k*nd + j`, over global vectors
modelled as functions `ℕ → ℚ`.  The double literal `1.E-15` is modelled by
the rational `1/10^15`. -/

/-- The guard constant `eps = 1.E-15` of `ComputeFCTSolution`. -/
def fctEps : ℚ := 1 / 10 ^ 15

/-- Inputs of `ComputeFCTSolution`: the current solution `x`, high- and
low-order discrete time derivatives `yH`, `yL`, the lumped mass vector, the
precomputed bounds `bnds.x_min` / `bnds.x_max`, and the time step `dt`. -/
structure FCTData where
  lumpedM : ℕ → ℚ
  x_min : ℕ → ℚ
  x_max : ℕ → ℚ
  x : ℕ → ℚ
  yH : ℕ → ℚ
  yL : ℕ → ℚ
  dt : ℚ

/-- Flattened dof index `dofInd = k*nd + j` of node `j` of element `k`. -/
def dofInd (k nd j : ℕ) : ℕ := k * nd + j

/-- `uClipped(j)`: the forward-Euler high-order value clipped to the bounds,
`min(x_max, max(x + dt*yH, x_min))`. -/
def uClipped (D : FCTData) (i : ℕ) : ℚ :=
  min (D.x_max i) (max (D.x i + D.dt * D.yH i) (D.x_min i))

/-- Raw clipped antidiffusive flux
`fClipped(j) = lumpedM * (uClipped - (x + dt*yL))` before rescaling. -/
def fClipped0 (D : FCTData) (i : ℕ) : ℚ :=
  D.lumpedM i * (uClipped D i - (D.x i + D.dt * D.yL i))

/-- `sumPos`: element sum of the positive parts of the raw fluxes. -/
def sumPos (D : FCTData) (k nd : ℕ) : ℚ :=
  ∑ j ∈ Finset.range nd, max (fClipped0 D (dofInd k nd j)) 0

/-- `sumNeg`: element sum of the negative parts of the raw fluxes. -/
def sumNeg (D : FCTData) (k nd : ℕ) : ℚ :=
  ∑ j ∈ Finset.range nd, min (fClipped0 D (dofInd k nd j)) 0

/-- `fClipped(j)` after the two sequential rescaling guards of the source
(positive fluxes scaled by `-sumNeg/sumPos` when `sumPos+sumNeg > eps`,
negative fluxes by `-sumPos/sumNeg` when `sumPos+sumNeg < -eps`). -/
def fClipped (D : FCTData) (k nd j : ℕ) : ℚ :=
  let sP := sumPos D k nd
  let sN := sumNeg D k nd
  let f := fClipped0 D (dofInd k nd j)
  let f1 := if sP + sN > fctEps ∧ f > fctEps then f * (-sN / sP) else f
  if sP + sN < -fctEps ∧ f1 < -fctEps then f1 * (-sP / sN) else f1

/-- Output `y(dofInd)` of `ComputeFCTSolution`:
`yL + fClipped / (dt * lumpedM)`. -/
def fctY (D : FCTData) (k nd j : ℕ) : ℚ :=
  D.yL (dofInd k nd j) + fClipped D k nd j / (D.dt * D.lumpedM (dofInd k nd j))

theorem sumPos_nonneg (D : FCTData) (k nd : ℕ) : 0 ≤ sumPos D k nd :=
  Finset.sum_nonneg fun j _ => le_max_right _ _

theorem sumNeg_nonpos (D : FCTData) (k nd : ℕ) : sumNeg D k nd ≤ 0 :=
  Finset.sum_nonpos fun j _ => min_le_right _ _

theorem fctEps_pos : 0 < fctEps := by norm_num [fctEps]

/-- The rescaled flux lies between the raw flux and zero. -/
theorem fClipped_between (D : FCTData) (k nd j : ℕ) :
    min (fClipped0 D (dofInd k nd j)) 0 ≤ fClipped D k nd j ∧
    fClipped D k nd j ≤ max (fClipped0 D (dofInd k nd j)) 0 := by
  have hP := sumPos_nonneg D k nd
  have hN := sumNeg_nonpos D k nd
  have hE := fctEps_pos
  simp only [fClipped]
  by_cases hA : sumPos D k nd + sumNeg D k nd > fctEps ∧
      fClipped0 D (dofInd k nd j) > fctEps
  · simp only [if_pos hA]
    have hsum := hA.1
    have hf := hA.2
    have hsP : 0 < sumPos D k nd := by linarith
    have halpha0 : 0 ≤ -sumNeg D k nd / sumPos D k nd :=
      div_nonneg (by linarith) (le_of_lt hsP)
    have halpha1 : -sumNeg D k nd / sumPos D k nd ≤ 1 :=
      (div_le_one hsP).mpr (by linarith)
    have hres0 : 0 ≤ fClipped0 D (dofInd k nd j) * (-sumNeg D k nd / sumPos D k nd) :=
      mul_nonneg (by linarith) halpha0
    have hresf : fClipped0 D (dofInd k nd j) * (-sumNeg D k nd / sumPos D k nd) ≤
        fClipped0 D (dofInd k nd j) :=
      mul_le_of_le_one_right (by linarith) halpha1
    have hno2 : ¬(sumPos D k nd + sumNeg D k nd < -fctEps ∧
        fClipped0 D (dofInd k nd j) * (-sumNeg D k nd / sumPos D k nd) < -fctEps) := by
      rintro ⟨hc, -⟩
      linarith
    simp only [if_neg hno2]
    constructor
    · exact le_trans (min_le_right _ _) hres0
    · exact le_trans hresf (le_max_left _ _)
  · simp only [if_neg hA]
    by_cases hB : sumPos D k nd + sumNeg D k nd < -fctEps ∧
        fClipped0 D (dofInd k nd j) < -fctEps
    · simp only [if_pos hB]
      have hsum := hB.1
      have hf := hB.2
      have hsN : sumNeg D k nd < 0 := by linarith
      have hbeta0 : 0 ≤ -sumPos D k nd / sumNeg D k nd := by
        rw [div_nonneg_iff]
        right
        constructor <;> linarith
      have hbeta1 : -sumPos D k nd / sumNeg D k nd ≤ 1 := by
        rw [div_le_one_iff]
        right
        right
        constructor <;> linarith
      have hres0 : fClipped0 D (dofInd k nd j) * (-sumPos D k nd / sumNeg D k nd) ≤ 0 :=
        mul_nonpos_iff.mpr (Or.inr ⟨by linarith, hbeta0⟩)
      have hresf : fClipped0 D (dofInd k nd j) ≤
          fClipped0 D (dofInd k nd j) * (-sumPos D k nd / sumNeg D k nd) := by
        nlinarith [hbeta0, hbeta1]
      constructor
      · exact le_trans (min_le_left _ _) hresf
      · exact le_trans hres0 (le_max_right _ _)
    · simp only [if_neg hB]
      exact ⟨min_le_left _ _, le_max_left _ _⟩

/-- C1: after `ComputeFCTSolution`, for every element and node the
forward-Euler update `x + dt*y` lies within the precomputed bounds
`[x_min, x_max]`, given that the lumped masses are positive, `dt > 0`, and
the low-order update `x + dt*yL` respects the bounds (the defining property
of the low-order scheme).  Proved in exact arithmetic, hence a fortiori to
tolerance `1e-10`. -/
theorem computeFCTSolution_bounds (D : FCTData) (k nd : ℕ)
    (hdt : 0 < D.dt)
    (hm : ∀ j < nd, 0 < D.lumpedM (dofInd k nd j))
    (hlow : ∀ j < nd,
      D.x_min (dofInd k nd j) ≤ D.x (dofInd k nd j) + D.dt * D.yL (dofInd k nd j) ∧
      D.x (dofInd k nd j) + D.dt * D.yL (dofInd k nd j) ≤ D.x_max (dofInd k nd j)) :
    ∀ j < nd,
      D.x_min (dofInd k nd j) ≤ D.x (dofInd k nd j) + D.dt * fctY D k nd j ∧
      D.x (dofInd k nd j) + D.dt * fctY D k nd j ≤ D.x_max (dofInd k nd j) := by
  intro j hj
  obtain ⟨hl1, hl2⟩ := hlow j hj
  have hmj := hm j hj
  have hmne : D.lumpedM (dofInd k nd j) ≠ 0 := ne_of_gt hmj
  have hdtne : D.dt ≠ 0 := ne_of_gt hdt
  have hucmax : uClipped D (dofInd k nd j) ≤ D.x_max (dofInd k nd j) :=
    min_le_left _ _
  have hucmin : D.x_min (dofInd k nd j) ≤ uClipped D (dofInd k nd j) :=
    le_min (by linarith) (le_max_right _ _)
  obtain ⟨hfl, hfu⟩ := fClipped_between D k nd j
  have hexpr : D.x (dofInd k nd j) + D.dt * fctY D k nd j =
      (D.x (dofInd k nd j) + D.dt * D.yL (dofInd k nd j)) +
        fClipped D k nd j / D.lumpedM (dofInd k nd j) := by
    unfold fctY
    field_simp
    ring
  have huc : (D.x (dofInd k nd j) + D.dt * D.yL (dofInd k nd j)) +
      fClipped0 D (dofInd k nd j) / D.lumpedM (dofInd k nd j) =
      uClipped D (dofInd k nd j) := by
    unfold fClipped0
    field_simp
  rw [hexpr]
  have hinv : 0 < (D.lumpedM (dofInd k nd j))⁻¹ := inv_pos.mpr hmj
  rcases le_total (fClipped0 D (dofInd k nd j)) 0 with hs | hs
  · rw [min_eq_left hs] at hfl
    rw [max_eq_right hs] at hfu
    have h1 : fClipped D k nd j / D.lumpedM (dofInd k nd j) ≤ 0 :=
      div_nonpos_of_nonpos_of_nonneg hfu (le_of_lt hmj)
    have h2 : fClipped0 D (dofInd k nd j) / D.lumpedM (dofInd k nd j) ≤
        fClipped D k nd j / D.lumpedM (dofInd k nd j) :=
      div_le_div_of_nonneg_right hfl (le_of_lt hmj)
    constructor
    · linarith
    · linarith
  · rw [min_eq_right hs] at hfl
    rw [max_eq_left hs] at hfu
    have h1 : 0 ≤ fClipped D k nd j / D.lumpedM (dofInd k nd j) :=
      div_nonneg hfl (le_of_lt hmj)
    have h2 : fClipped D k nd j / D.lumpedM (dofInd k nd j) ≤
        fClipped0 D (dofInd k nd j) / D.lumpedM (dofInd k nd j) :=
      div_le_div_of_nonneg_right hfu (le_of_lt hmj)
    constructor
    · linarith
    · linarith

/-- Concrete FCT input for witnesses: one element, bounds `[-1, 1]`, zero
solution and low-order derivative, high-order derivative 2, unit masses. -/
def fctData1 : FCTData :=
  ⟨fun _ => 1, fun _ => -1, fun _ => 1, fun _ => 0, fun _ => 2, fun _ => 0, 1⟩

/-- Witness for C1 at `fctData1`, element 0 with 2 nodes. -/
theorem computeFCTSolution_bounds_witness :
    (0 < fctData1.dt ∧
     (∀ j < 2, 0 < fctData1.lumpedM (dofInd 0 2 j)) ∧
     (∀ j < 2,
       fctData1.x_min (dofInd 0 2 j) ≤
         fctData1.x (dofInd 0 2 j) + fctData1.dt * fctData1.yL (dofInd 0 2 j) ∧
       fctData1.x (dofInd 0 2 j) + fctData1.dt * fctData1.yL (dofInd 0 2 j) ≤
         fctData1.x_max (dofInd 0 2 j))) ∧
    (∀ j < 2,
      fctData1.x_min (dofInd 0 2 j) ≤
        fctData1.x (dofInd 0 2 j) + fctData1.dt * fctY fctData1 0 2 j ∧
      fctData1.x (dofInd 0 2 j) + fctData1.dt * fctY fctData1 0 2 j ≤
        fctData1.x_max (dofInd 0 2 j)) :=
  ⟨⟨by norm_num [fctData1],
    by intro j hj; norm_num [fctData1],
    by intro j hj; norm_num [fctData1]⟩,
   computeFCTSolution_bounds fctData1 0 2 (by norm_num [fctData1])
     (by intro j hj; norm_num [fctData1])
     (by intro j hj; norm_num [fctData1])⟩

theorem fClipped0_sum_split (D : FCTData) (k nd : ℕ) :
    ∑ j ∈ Finset.range nd, fClipped0 D (dofInd k nd j) =
      sumPos D k nd + sumNeg D k nd := by
  unfold sumPos sumNeg
  rw [← Finset.sum_add_distrib]
  refine Finset.sum_congr rfl fun j _ => ?_
  rw [max_add_min]
  ring

/-- The element sum of the claim's flux expression
`lumpedM * dt * (y - yL)` equals the element sum of `fClipped`. -/
theorem fct_postflux_sum (D : FCTData) (k nd : ℕ)
    (hdt : D.dt ≠ 0) (hm : ∀ j < nd, D.lumpedM (dofInd k nd j) ≠ 0) :
    ∑ j ∈ Finset.range nd,
        D.lumpedM (dofInd k nd j) * D.dt * (fctY D k nd j - D.yL (dofInd k nd j)) =
      ∑ j ∈ Finset.range nd, fClipped D k nd j := by
  refine Finset.sum_congr rfl fun j hj => ?_
  have hmj := hm j (Finset.mem_range.mp hj)
  unfold fctY
  field_simp
  ring

theorem fClipped_posScale (D : FCTData) (k nd j : ℕ)
    (hS : fctEps < sumPos D k nd + sumNeg D k nd) :
    fClipped D k nd j =
      if fctEps < fClipped0 D (dofInd k nd j) then
        fClipped0 D (dofInd k nd j) * (-sumNeg D k nd / sumPos D k nd)
      else fClipped0 D (dofInd k nd j) := by
  have hE := fctEps_pos
  have hno : ¬ sumPos D k nd + sumNeg D k nd < -fctEps := by linarith
  by_cases hf : fctEps < fClipped0 D (dofInd k nd j)
  · have h1 : sumPos D k nd + sumNeg D k nd > fctEps ∧
        fClipped0 D (dofInd k nd j) > fctEps := ⟨hS, hf⟩
    simp only [fClipped, if_pos h1]
    have h2 : ¬(sumPos D k nd + sumNeg D k nd < -fctEps ∧
        fClipped0 D (dofInd k nd j) * (-sumNeg D k nd / sumPos D k nd) < -fctEps) :=
      fun hc => hno hc.1
    rw [if_neg h2, if_pos hf]
  · have h1 : ¬(sumPos D k nd + sumNeg D k nd > fctEps ∧
        fClipped0 D (dofInd k nd j) > fctEps) := fun hc => hf hc.2
    simp only [fClipped, if_neg h1]
    have h2 : ¬(sumPos D k nd + sumNeg D k nd < -fctEps ∧
        fClipped0 D (dofInd k nd j) < -fctEps) := fun hc => hno hc.1
    rw [if_neg h2, if_neg hf]

theorem fClipped_negScale (D : FCTData) (k nd j : ℕ)
    (hS : sumPos D k nd + sumNeg D k nd < -fctEps) :
    fClipped D k nd j =
      if fClipped0 D (dofInd k nd j) < -fctEps then
        fClipped0 D (dofInd k nd j) * (-sumPos D k nd / sumNeg D k nd)
      else fClipped0 D (dofInd k nd j) := by
  have hE := fctEps_pos
  have hno : ¬ sumPos D k nd + sumNeg D k nd > fctEps := by linarith
  have h1 : ¬(sumPos D k nd + sumNeg D k nd > fctEps ∧
      fClipped0 D (dofInd k nd j) > fctEps) := fun hc => hno hc.1
  simp only [fClipped, if_neg h1]
  by_cases hf : fClipped0 D (dofInd k nd j) < -fctEps
  · have h2 : sumPos D k nd + sumNeg D k nd < -fctEps ∧
        fClipped0 D (dofInd k nd j) < -fctEps := ⟨hS, hf⟩
    rw [if_pos h2, if_pos hf]
  · have h2 : ¬(sumPos D k nd + sumNeg D k nd < -fctEps ∧
        fClipped0 D (dofInd k nd j) < -fctEps) := fun hc => hf hc.2
    rw [if_neg h2, if_neg hf]

theorem fClipped_noScale (D : FCTData) (k nd j : ℕ)
    (hS : |sumPos D k nd + sumNeg D k nd| ≤ fctEps) :
    fClipped D k nd j = fClipped0 D (dofInd k nd j) := by
  have hE := fctEps_pos
  obtain ⟨ha, hb⟩ := abs_le.mp hS
  have hno1 : ¬ sumPos D k nd + sumNeg D k nd > fctEps := by linarith
  have hno2 : ¬ sumPos D k nd + sumNeg D k nd < -fctEps := by linarith
  have h1 : ¬(sumPos D k nd + sumNeg D k nd > fctEps ∧
      fClipped0 D (dofInd k nd j) > fctEps) := fun hc => hno1 hc.1
  simp only [fClipped, if_neg h1]
  have h2 : ¬(sumPos D k nd + sumNeg D k nd < -fctEps ∧
      fClipped0 D (dofInd k nd j) < -fctEps) := fun hc => hno2 hc.1
  rw [if_neg h2]

/-- C9 (amended): the rescaled antidiffusive fluxes sum to zero over the
element when `|sumPos+sumNeg| > eps`, provided additionally every nonzero
raw flux exceeds `eps` in magnitude (raw fluxes inside `(0,eps]` or
`[-eps,0)` escape the rescaling guards and spoil exact conservation); when
`|sumPos+sumNeg| ≤ eps` no rescaling happens and the sum itself is within
`eps` of zero. -/
theorem fct_conservation (D : FCTData) (k nd : ℕ)
    (hdt : D.dt ≠ 0) (hm : ∀ j < nd, D.lumpedM (dofInd k nd j) ≠ 0)
    (hflux : ∀ j < nd, fClipped0 D (dofInd k nd j) ≠ 0 →
      fctEps < |fClipped0 D (dofInd k nd j)|) :
    (fctEps < |sumPos D k nd + sumNeg D k nd| →
      ∑ j ∈ Finset.range nd,
        D.lumpedM (dofInd k nd j) * D.dt * (fctY D k nd j - D.yL (dofInd k nd j)) = 0) ∧
    (|sumPos D k nd + sumNeg D k nd| ≤ fctEps →
      |∑ j ∈ Finset.range nd,
        D.lumpedM (dofInd k nd j) * D.dt * (fctY D k nd j - D.yL (dofInd k nd j))| ≤ fctEps) := by
  have hE := fctEps_pos
  have hP := sumPos_nonneg D k nd
  have hN := sumNeg_nonpos D k nd
  constructor
  · intro habs
    rw [fct_postflux_sum D k nd hdt hm]
    rcases lt_abs.mp habs with hS | hS
    · -- positive rescaling: sumPos + sumNeg > eps
      have hsP : 0 < sumPos D k nd := by linarith
      have hpt : ∀ j ∈ Finset.range nd, fClipped D k nd j =
          (-sumNeg D k nd / sumPos D k nd) * max (fClipped0 D (dofInd k nd j)) 0 +
            min (fClipped0 D (dofInd k nd j)) 0 := by
        intro j hj
        rw [fClipped_posScale D k nd j hS]
        by_cases hf : fctEps < fClipped0 D (dofInd k nd j)
        · rw [if_pos hf, max_eq_left (by linarith), min_eq_right (by linarith)]
          ring
        · rcases eq_or_ne (fClipped0 D (dofInd k nd j)) 0 with h0 | h0
          · rw [if_neg hf, h0]
            simp
          · have habs2 := hflux j (Finset.mem_range.mp hj) h0
            have hneg : fClipped0 D (dofInd k nd j) < 0 := by
              rcases lt_abs.mp habs2 with h | h
              · exact absurd h hf
              · linarith
            rw [if_neg hf, max_eq_right (by linarith), min_eq_left (by linarith)]
            ring
      rw [Finset.sum_congr rfl hpt, Finset.sum_add_distrib, ← Finset.mul_sum]
      show (-sumNeg D k nd / sumPos D k nd) * sumPos D k nd + sumNeg D k nd = 0
      rw [div_mul_cancel₀ _ (ne_of_gt hsP)]
      ring
    · -- negative rescaling: sumPos + sumNeg < -eps
      have hS' : sumPos D k nd + sumNeg D k nd < -fctEps := by linarith
      have hsN : sumNeg D k nd < 0 := by linarith
      have hpt : ∀ j ∈ Finset.range nd, fClipped D k nd j =
          (-sumPos D k nd / sumNeg D k nd) * min (fClipped0 D (dofInd k nd j)) 0 +
            max (fClipped0 D (dofInd k nd j)) 0 := by
        intro j hj
        rw [fClipped_negScale D k nd j hS']
        by_cases hf : fClipped0 D (dofInd k nd j) < -fctEps
        · rw [if_pos hf, min_eq_left (by linarith), max_eq_right (by linarith)]
          ring
        · rcases eq_or_ne (fClipped0 D (dofInd k nd j)) 0 with h0 | h0
          · rw [if_neg hf, h0]
            simp
          · have habs2 := hflux j (Finset.mem_range.mp hj) h0
            have hpos : 0 < fClipped0 D (dofInd k nd j) := by
              rcases lt_abs.mp habs2 with h | h
              · linarith
              · exact absurd (by linarith) hf
            rw [if_neg hf, min_eq_right (by linarith), max_eq_left (by linarith)]
            ring
      rw [Finset.sum_congr rfl hpt, Finset.sum_add_distrib, ← Finset.mul_sum]
      show (-sumPos D k nd / sumNeg D k nd) * sumNeg D k nd + sumPos D k nd = 0
      rw [div_mul_cancel₀ _ (ne_of_lt hsN)]
      ring
  · intro habs
    rw [fct_postflux_sum D k nd hdt hm,
        Finset.sum_congr rfl (fun j _ => fClipped_noScale D k nd j habs),
        fClipped0_sum_split]
    exact habs

/-- Witness for C9 (amended) at `fctData1`, element 0 with 2 nodes (all raw
fluxes equal 1). -/
theorem fct_conservation_witness :
    (fctData1.dt ≠ 0 ∧
     (∀ j < 2, fctData1.lumpedM (dofInd 0 2 j) ≠ 0) ∧
     (∀ j < 2, fClipped0 fctData1 (dofInd 0 2 j) ≠ 0 →
       fctEps < |fClipped0 fctData1 (dofInd 0 2 j)|)) ∧
    ((fctEps < |sumPos fctData1 0 2 + sumNeg fctData1 0 2| →
      ∑ j ∈ Finset.range 2,
        fctData1.lumpedM (dofInd 0 2 j) * fctData1.dt *
          (fctY fctData1 0 2 j - fctData1.yL (dofInd 0 2 j)) = 0) ∧
     (|sumPos fctData1 0 2 + sumNeg fctData1 0 2| ≤ fctEps →
      |∑ j ∈ Finset.range 2,
        fctData1.lumpedM (dofInd 0 2 j) * fctData1.dt *
          (fctY fctData1 0 2 j - fctData1.yL (dofInd 0 2 j))| ≤ fctEps)) :=
  ⟨⟨by norm_num [fctData1],
    by intro j hj; norm_num [fctData1],
    by
      intro j hj
      norm_num [fClipped0, uClipped, fctData1, fctEps]⟩,
   fct_conservation fctData1 0 2 (by norm_num [fctData1])
     (by intro j hj; norm_num [fctData1])
     (by
       intro j hj
       norm_num [fClipped0, uClipped, fctData1, fctEps])⟩

/-- Concrete FCT input refuting exact conservation: raw fluxes
`(2, 1e-15, 1e-15)` - the two fluxes equal to `eps` escape the `> eps`
rescaling guard. -/
def fctData2 : FCTData :=
  ⟨fun _ => 1, fun _ => -10, fun _ => 10, fun _ => 0,
   fun i => if i = 0 then 2 else fctEps, fun _ => 0, 1⟩

/-- C9 counterexample: at `fctData2` (element 0, 3 nodes) the element sum
`sumPos + sumNeg` exceeds `eps`, yet the post-rescaling flux sum
`∑ lumpedM*dt*(y-yL)` equals `2e-15`, not zero. -/
theorem fct_conservation_counterexample :
    fctEps < |sumPos fctData2 0 3 + sumNeg fctData2 0 3| ∧
    ∑ j ∈ Finset.range 3,
      fctData2.lumpedM (dofInd 0 3 j) * fctData2.dt *
        (fctY fctData2 0 3 j - fctData2.yL (dofInd 0 3 j)) ≠ 0 := by
  constructor
  · norm_num [sumPos, sumNeg, fClipped0, uClipped, fctData2, fctEps, dofInd,
      Finset.sum_range_succ, abs_of_pos]
  · norm_num [fctY, fClipped, sumPos, sumNeg, fClipped0, uClipped, fctData2,
      fctEps, dofInd, Finset.sum_range_succ]

/-! ## Accumulating prolongation `DofMaps::SubdomainsToGlobal`
(DofMapsDST.cpp, lines 808-883)

Embedded for a single-process run (`num_procs = 1`, `mytoffset = 0`), where
`MPI_Alltoallv` returns the send buffer unchanged and, per the Phase-B setup,
`SubdomainLTrueDofs[ip] = SubdomainGTrueDofs[ip]`.  Each subdomain `ip` is a
pair of its `SubdomainGTrueDofs` list and its local vector `x[ip]`; the
global vector `y` is a function `ℕ → ℚ`.  The send loop packs `x[ip][i]` in
`(ip, i)` order, the receive loop walks the same order and performs
`y[tdof] += recvbuf[j]`. -/

/-- Embedding of `SubdomainsToGlobal`: pack all subdomain vectors into the
send buffer in subdomain order, exchange (identity on one process), then
accumulate `+=` into `y` at each subdomain's global-true dof positions. -/
def SubdomainsToGlobal (subs : List (List ℕ × List ℚ)) (y : ℕ → ℚ) : ℕ → ℚ :=
  let sendbuf := subs.flatMap (fun s => s.2)
  let recvbuf := sendbuf
  ((subs.flatMap (fun s => s.1)).zip recvbuf).foldl
    (fun yv p => Function.update yv p.1 (yv p.1 + p.2)) y

/-- The values contributed to global dof `d` by all subdomains, in traversal
order. -/
def contributionsTo (subs : List (List ℕ × List ℚ)) (d : ℕ) : List ℚ :=
  ((subs.flatMap (fun s => s.1.zip s.2)).filter
    (fun p => decide (p.1 = d))).map Prod.snd

theorem flat_zip (subs : List (List ℕ × List ℚ))
    (hlen : ∀ s ∈ subs, s.1.length = s.2.length) :
    (subs.flatMap (fun s => s.1)).zip (subs.flatMap (fun s => s.2)) =
      subs.flatMap (fun s => s.1.zip s.2) := by
  induction subs with
  | nil => simp
  | cons s ss ih =>
    simp only [List.flatMap_cons]
    rw [List.zip_append (hlen s (by simp)), ih (fun t ht => hlen t (by simp [ht]))]

theorem foldl_update_add (contribs : List (ℕ × ℚ)) (y : ℕ → ℚ) (d : ℕ) :
    (contribs.foldl (fun yv p => Function.update yv p.1 (yv p.1 + p.2)) y) d =
      y d + ((contribs.filter (fun p => decide (p.1 = d))).map Prod.snd).sum := by
  induction contribs generalizing y with
  | nil => simp
  | cons p ps ih =>
    simp only [List.foldl_cons]
    rw [ih]
    by_cases hp : p.1 = d
    · subst hp
      rw [Function.update_same]
      simp [List.filter_cons]
      ring
    · rw [Function.update_noteq (Ne.symm hp)]
      simp [List.filter_cons, hp]

/-- C3: `SubdomainsToGlobal` accumulates with `+=`: every global dof ends at
its previous value plus the sum of all subdomain contributions to it - in
particular `c1 + c2` when exactly two subdomains contribute `c1` and `c2` -
and dofs with no contribution are unchanged. -/
theorem subdomainsToGlobal_accumulates (subs : List (List ℕ × List ℚ))
    (y : ℕ → ℚ) (hlen : ∀ s ∈ subs, s.1.length = s.2.length) :
    ∀ d : ℕ,
      SubdomainsToGlobal subs y d = y d + (contributionsTo subs d).sum ∧
      (∀ c1 c2, contributionsTo subs d = [c1, c2] →
        SubdomainsToGlobal subs y d = y d + (c1 + c2)) ∧
      (contributionsTo subs d = [] → SubdomainsToGlobal subs y d = y d) := by
  intro d
  have hmain : SubdomainsToGlobal subs y d = y d + (contributionsTo subs d).sum := by
    unfold SubdomainsToGlobal contributionsTo
    rw [flat_zip subs hlen, foldl_update_add]
  refine ⟨hmain, fun c1 c2 hc => ?_, fun hc => ?_⟩
  · rw [hmain, hc]
    simp
  · rw [hmain, hc]
    simp

/-- Witness for C3: two subdomains sharing global dof 2 with contributions
5 and 4; dof 7 receives none. -/
theorem subdomainsToGlobal_accumulates_witness :
    (∀ s ∈ [([0, 2], [(3 : ℚ), 5]), ([2], [4])], s.1.length = s.2.length) ∧
    (∀ d : ℕ,
      SubdomainsToGlobal [([0, 2], [(3 : ℚ), 5]), ([2], [4])] (fun _ => 10) d =
        (fun _ => (10 : ℚ)) d +
          (contributionsTo [([0, 2], [(3 : ℚ), 5]), ([2], [4])] d).sum ∧
      (∀ c1 c2, contributionsTo [([0, 2], [(3 : ℚ), 5]), ([2], [4])] d = [c1, c2] →
        SubdomainsToGlobal [([0, 2], [(3 : ℚ), 5]), ([2], [4])] (fun _ => 10) d =
          (fun _ => (10 : ℚ)) d + (c1 + c2)) ∧
      (contributionsTo [([0, 2], [(3 : ℚ), 5]), ([2], [4])] d = [] →
        SubdomainsToGlobal [([0, 2], [(3 : ℚ), 5]), ([2], [4])] (fun _ => 10) d =
          (fun _ => (10 : ℚ)) d)) :=
  ⟨by decide,
   subdomainsToGlobal_accumulates [([0, 2], [(3 : ℚ), 5]), ([2], [4])]
     (fun _ => 10) (by decide)⟩

/-! ## Neighbor halo exchange `DofMaps::TransferToNeighbors`
(DofMapsDST.cpp, lines 277-414; helpers `GetSubdomainijk` line 29,
`GetDirectionijk` line 36, `GetSubdomainId` line 45)

The message set of one call is deterministic: for every sent subdomain and
every enumerated direction surviving the zero-direction and grid-bound
guards, the receiver builds a fresh local vector of its subdomain and
scatters the payload at the overlap dofs of the opposite direction.  We
embed the enumeration (`transferPairs`) and the per-message receive effect
(`recvOvlpSol`); MPI matching by `(source, tag)` is faithful because the tag
`i0*nrneighbors + d` is unique per message. -/

/-- Embedding of `GetSubdomainijk`: split a subdomain id into grid
coordinates `(i, j, k)` of an `nx × ny × nz` grid. -/
def GetSubdomainijk (ip nx ny : ℕ) : ℕ × ℕ × ℕ :=
  let k := ip / (nx * ny)
  ((ip - k * (nx * ny)) % nx, (ip - k * (nx * ny)) / nx, k)

/-- Embedding of `GetDirectionijk`: split a direction id (base-3 digits,
each shifted by one) into its components in `{-1,0,1}`. -/
def GetDirectionijk (id : ℕ) : ℤ × ℤ × ℤ :=
  let k := id / 9
  (((id - k * 9) % 3 : ℕ) - 1, ((id - k * 9) / 3 : ℕ) - 1, (k : ℤ) - 1)

/-- Embedding of `GetSubdomainId`: flatten grid coordinates
(`k` replaced by 0 in 2D). -/
def GetSubdomainId (dim nx ny : ℕ) (i j k : ℤ) : ℤ :=
  (if dim = 2 then 0 else k) * ((ny : ℤ) * (nx : ℤ)) + j * (nx : ℤ) + i

/-- The opposite direction id used by the receiver: the first `dim`
components are negated, the third stays `-1` in 2D
(`direction1` initialized to `-1`). -/
def oppDirId (dim : ℕ) (dx dy dz : ℤ) : ℤ :=
  GetDirectionIdZ (-dx) (-dy) (if dim = 2 then -1 else -dz)

/-- The opposite direction id of direction id `d`. -/
def oppOf (dim d : ℕ) : ℕ :=
  (oppDirId dim (GetDirectionijk d).1 (GetDirectionijk d).2.1
    (GetDirectionijk d).2.2).toNat

/-- The zero-direction skip condition of the send/receive loops. -/
def isZeroDir (dim d : ℕ) : Prop :=
  (dim = 2 ∧ (GetDirectionijk d).1 = 0 ∧ (GetDirectionijk d).2.1 = 0) ∨
  (dim = 3 ∧ (GetDirectionijk d).1 = 0 ∧ (GetDirectionijk d).2.1 = 0 ∧
    (GetDirectionijk d).2.2 = 0)

/-- Destination coordinates `(i,j,k) + direction` lie inside the grid (the
three bound checks of the loops). -/
def destOk (dim nx ny nz i0 d : ℕ) : Prop :=
  let ijk := GetSubdomainijk i0 nx ny
  let dir := GetDirectionijk d
  0 ≤ (ijk.1 : ℤ) + dir.1 ∧ (ijk.1 : ℤ) + dir.1 < (nx : ℤ) ∧
  0 ≤ (ijk.2.1 : ℤ) + dir.2.1 ∧ (ijk.2.1 : ℤ) + dir.2.1 < (ny : ℤ) ∧
  0 ≤ (if dim = 3 then (ijk.2.2 : ℤ) + dir.2.2 else 0) ∧
  (if dim = 3 then (ijk.2.2 : ℤ) + dir.2.2 else 0) < (nz : ℤ)

/-- Destination subdomain id `i1` of pair `(i0, d)`. -/
def destId (dim nx ny nz i0 d : ℕ) : ℕ :=
  let ijk := GetSubdomainijk i0 nx ny
  let dir := GetDirectionijk d
  (GetSubdomainId dim nx ny ((ijk.1 : ℤ) + dir.1) ((ijk.2.1 : ℤ) + dir.2.1)
    (if dim = 3 then (ijk.2.2 : ℤ) + dir.2.2 else 0)).toNat

/-- The `(source subdomain, direction, destination subdomain)` triples
exchanged by one `TransferToNeighbors` call: the double loop over sent
subdomains and directions with the zero-direction skip and the silent
grid-bound skips. -/
def transferPairs (dim nx ny nz : ℕ) (ids : List ℕ) : List (ℕ × ℕ × ℕ) :=
  ids.flatMap fun i0 =>
    (List.range (3 ^ dim)).flatMap fun d =>
      let ijk := GetSubdomainijk i0 nx ny
      let dir := GetDirectionijk d
      if dim = 2 ∧ dir.1 = 0 ∧ dir.2.1 = 0 then []
      else if dim = 3 ∧ dir.1 = 0 ∧ dir.2.1 = 0 ∧ dir.2.2 = 0 then []
      else if (ijk.1 : ℤ) + dir.1 < 0 ∨ (nx : ℤ) ≤ (ijk.1 : ℤ) + dir.1 then []
      else if (ijk.2.1 : ℤ) + dir.2.1 < 0 ∨ (ny : ℤ) ≤ (ijk.2.1 : ℤ) + dir.2.1 then []
      else if (if dim = 3 then (ijk.2.2 : ℤ) + dir.2.2 else 0) < 0 ∨
          (nz : ℤ) ≤ (if dim = 3 then (ijk.2.2 : ℤ) + dir.2.2 else 0) then []
      else [(i0, d, destId dim nx ny nz i0 d)]

/-- `Vector::SetSubVector`: write `v[m]` at position `tdofs[m]` of `y`. -/
def setSubVector (y : ℕ → ℚ) (tdofs : List ℕ) (v : List ℚ) : ℕ → ℚ :=
  (tdofs.zip v).foldl (fun yv p => Function.update yv p.1 p.2) y

/-- Receive effect of one message `(i0, d, i1)`: the receiver allocates a
fresh zero vector for `OvlpSol[i1][d1]` (`d1` the opposite direction) and
scatters the payload `x[i0]` restricted to `OvlpTDofs[i0][d]` at the
positions `OvlpTDofs[i1][d1]`. -/
def recvOvlpSol (dim : ℕ) (OvlpTDofs : ℕ → ℕ → List ℕ) (x : ℕ → ℕ → ℚ)
    (m : ℕ × ℕ × ℕ) : (ℕ × ℕ) × (ℕ → ℚ) :=
  let i0 := m.1
  let d := m.2.1
  let i1 := m.2.2
  let d1 := oppOf dim d
  ((i1, d1), setSubVector (fun _ => 0) (OvlpTDofs i1 d1)
    ((OvlpTDofs i0 d).map (x i0)))

/-- Embedding of one `TransferToNeighbors` call: the `OvlpSol` entries
written on the receiving side, one per exchanged pair. -/
def TransferToNeighbors (dim nx ny nz : ℕ) (ids : List ℕ)
    (OvlpTDofs : ℕ → ℕ → List ℕ) (x : ℕ → ℕ → ℚ) :
    List ((ℕ × ℕ) × (ℕ → ℚ)) :=
  (transferPairs dim nx ny nz ids).map (recvOvlpSol dim OvlpTDofs x)

theorem transferPairs_mem (dim nx ny nz : ℕ) (ids : List ℕ) (p : ℕ × ℕ × ℕ) :
    p ∈ transferPairs dim nx ny nz ids ↔
      p.1 ∈ ids ∧ p.2.1 < 3 ^ dim ∧ ¬ isZeroDir dim p.2.1 ∧
      destOk dim nx ny nz p.1 p.2.1 ∧ p.2.2 = destId dim nx ny nz p.1 p.2.1 := by
  obtain ⟨i0, d, i1⟩ := p
  simp only [transferPairs, List.mem_flatMap, List.mem_range]
  constructor
  · rintro ⟨a, ha, b, hb, hmem⟩
    by_cases h1 : dim = 2 ∧ (GetDirectionijk b).1 = 0 ∧ (GetDirectionijk b).2.1 = 0
    · rw [if_pos h1] at hmem
      exact absurd hmem (List.not_mem_nil _)
    rw [if_neg h1] at hmem
    by_cases h2 : dim = 3 ∧ (GetDirectionijk b).1 = 0 ∧ (GetDirectionijk b).2.1 = 0 ∧
        (GetDirectionijk b).2.2 = 0
    · rw [if_pos h2] at hmem
      exact absurd hmem (List.not_mem_nil _)
    rw [if_neg h2] at hmem
    by_cases h3 : ((GetSubdomainijk a nx ny).1 : ℤ) + (GetDirectionijk b).1 < 0 ∨
        (nx : ℤ) ≤ ((GetSubdomainijk a nx ny).1 : ℤ) + (GetDirectionijk b).1
    · rw [if_pos h3] at hmem
      exact absurd hmem (List.not_mem_nil _)
    rw [if_neg h3] at hmem
    by_cases h4 : ((GetSubdomainijk a nx ny).2.1 : ℤ) + (GetDirectionijk b).2.1 < 0 ∨
        (ny : ℤ) ≤ ((GetSubdomainijk a nx ny).2.1 : ℤ) + (GetDirectionijk b).2.1
    · rw [if_pos h4] at hmem
      exact absurd hmem (List.not_mem_nil _)
    rw [if_neg h4] at hmem
    by_cases h5 : (if dim = 3 then ((GetSubdomainijk a nx ny).2.2 : ℤ) +
          (GetDirectionijk b).2.2 else 0) < 0 ∨
        (nz : ℤ) ≤ (if dim = 3 then ((GetSubdomainijk a nx ny).2.2 : ℤ) +
          (GetDirectionijk b).2.2 else 0)
    · rw [if_pos h5] at hmem
      exact absurd hmem (List.not_mem_nil _)
    rw [if_neg h5] at hmem
    simp only [List.mem_singleton, Prod.mk.injEq] at hmem
    obtain ⟨rfl, rfl, rfl⟩ := hmem
    push_neg at h3 h4 h5
    refine ⟨ha, hb, ?_, ⟨h3.1, h3.2, h4.1, h4.2, h5.1, h5.2⟩, rfl⟩
    rintro (hz | hz)
    · exact h1 hz
    · exact h2 hz
  · rintro ⟨ha, hb, hz, hok, rfl⟩
    refine ⟨i0, ha, d, hb, ?_⟩
    obtain ⟨o1, o2, o3, o4, o5, o6⟩ := hok
    rw [if_neg (fun hc => hz (Or.inl hc)), if_neg (fun hc => hz (Or.inr hc)),
        if_neg (by push_neg; exact ⟨o1, o2⟩),
        if_neg (by push_neg; exact ⟨o3, o4⟩),
        if_neg (by push_neg; exact ⟨o5, o6⟩)]
    simp

theorem setSubVector_spec (tdofs : List ℕ) (v : List ℚ) (y : ℕ → ℚ)
    (hnd : tdofs.Nodup) (hl : tdofs.length = v.length) :
    (∀ idx (h : idx < tdofs.length),
      setSubVector y tdofs v (tdofs.get ⟨idx, h⟩) =
        v.get ⟨idx, by omega⟩) ∧
    (∀ t, t ∉ tdofs → setSubVector y tdofs v t = y t) := by
  induction tdofs generalizing v y with
  | nil =>
    refine ⟨fun idx h => absurd h (by simp), fun t _ => rfl⟩
  | cons t0 ts ih =>
    cases v with
    | nil => simp at hl
    | cons w ws =>
      have hnd' : ts.Nodup := hnd.of_cons
      have ht0 : t0 ∉ ts := by
        intro hc
        exact (List.nodup_cons.mp hnd).1 hc
      have hl' : ts.length = ws.length := by simpa using hl
      have hstep : setSubVector y (t0 :: ts) (w :: ws) =
          setSubVector (Function.update y t0 w) ts ws := rfl
      obtain ⟨ih1, ih2⟩ := ih ws (Function.update y t0 w) hnd' hl'
      constructor
      · intro idx h
        rw [hstep]
        match idx with
        | 0 =>
          have : setSubVector (Function.update y t0 w) ts ws t0 =
              Function.update y t0 w t0 := ih2 t0 ht0
          simpa using this.trans (Function.update_same t0 w y)
        | n + 1 =>
          simpa using ih1 n (by simpa using h)
      · intro t ht
        rw [hstep, ih2 t (fun hc => ht (List.mem_cons_of_mem t0 hc))]
        exact Function.update_noteq
          (fun hc : t = t0 => ht (by rw [hc]; exact List.mem_cons_self t0 ts)) w y

/-- C5: in `TransferToNeighbors`, the zero direction is never transmitted;
a pair is exchanged exactly when its direction is non-zero and the
destination coordinates stay inside the grid (out-of-range directions are
skipped silently - they simply produce no message); and every exchanged
message writes the received buffer into a fresh local vector exactly at the
overlap-dof positions of the opposite direction, all other entries zero. -/
theorem transferToNeighbors_spec (dim nx ny nz : ℕ) (ids : List ℕ)
    (OvlpTDofs : ℕ → ℕ → List ℕ) (x : ℕ → ℕ → ℚ) :
    (∀ p ∈ transferPairs dim nx ny nz ids, ¬ isZeroDir dim p.2.1) ∧
    (∀ p : ℕ × ℕ × ℕ,
      p ∈ transferPairs dim nx ny nz ids ↔
        p.1 ∈ ids ∧ p.2.1 < 3 ^ dim ∧ ¬ isZeroDir dim p.2.1 ∧
        destOk dim nx ny nz p.1 p.2.1 ∧
        p.2.2 = destId dim nx ny nz p.1 p.2.1) ∧
    (TransferToNeighbors dim nx ny nz ids OvlpTDofs x =
      (transferPairs dim nx ny nz ids).map (recvOvlpSol dim OvlpTDofs x)) ∧
    (∀ m ∈ transferPairs dim nx ny nz ids,
      (recvOvlpSol dim OvlpTDofs x m).1 = (m.2.2, oppOf dim m.2.1) ∧
      (∀ hnd : (OvlpTDofs m.2.2 (oppOf dim m.2.1)).Nodup,
       ∀ hlen : (OvlpTDofs m.2.2 (oppOf dim m.2.1)).length =
         (OvlpTDofs m.1 m.2.1).length,
        (∀ idx (h : idx < (OvlpTDofs m.2.2 (oppOf dim m.2.1)).length),
          (recvOvlpSol dim OvlpTDofs x m).2
              ((OvlpTDofs m.2.2 (oppOf dim m.2.1)).get ⟨idx, h⟩) =
            x m.1 ((OvlpTDofs m.1 m.2.1).get ⟨idx, hlen ▸ h⟩)) ∧
        (∀ t, t ∉ OvlpTDofs m.2.2 (oppOf dim m.2.1) →
          (recvOvlpSol dim OvlpTDofs x m).2 t = 0))) := by
  refine ⟨fun p hp => ((transferPairs_mem dim nx ny nz ids p).mp hp).2.2.1,
    transferPairs_mem dim nx ny nz ids, rfl, ?_⟩
  intro m hm
  refine ⟨rfl, ?_⟩
  intro hnd hlen
  have hl2 : (OvlpTDofs m.2.2 (oppOf dim m.2.1)).length =
      ((OvlpTDofs m.1 m.2.1).map (x m.1)).length := by simpa using hlen
  obtain ⟨hs1, hs2⟩ := setSubVector_spec (OvlpTDofs m.2.2 (oppOf dim m.2.1))
    ((OvlpTDofs m.1 m.2.1).map (x m.1)) (fun _ => 0) hnd hl2
  have hv : (recvOvlpSol dim OvlpTDofs x m).2 =
      setSubVector (fun _ => 0) (OvlpTDofs m.2.2 (oppOf dim m.2.1))
        ((OvlpTDofs m.1 m.2.1).map (x m.1)) := rfl
  constructor
  · intro idx h
    rw [hv, hs1 idx h]
    simp [List.get_eq_getElem, List.getElem_map]
  · intro t ht
    rw [hv, hs2 t ht]

/-! ## Discrete upwinding matrix
(ex9.cpp: `SparseMatrix_Build_smap` lines 573-602,
`ComputeDiscreteUpwindingMatrix` lines 604-629)

A finalized CSR matrix is modelled by its rows: row `i` is the list of its
stored `(column, value)` entries in storage order.  The output data array
`D` is modelled as a function on coordinate pairs; this is faithful because
a finalized matrix has distinct column indices within a row, so storage
positions and coordinates correspond one to one (`smap[k]` is exactly the
position of the transposed entry, whose presence the source asserts via
`mfem_error`).  The row loop mirrors the source: per entry it computes
`dij = max(max(0,-kij),-kji)`, writes it at `(i,j)` and `(j,i)`, accumulates
the off-diagonal row sum, and finally writes `D(i,i) = -rowsum`. -/

structure CSR where
  rows : List (List (ℕ × ℚ))

/-- Matrix dimension `n = A.Size()`. -/
def CSR.n (A : CSR) : ℕ := A.rows.length

/-- The stored entries of row `i`. -/
def CSR.row (A : CSR) (i : ℕ) : List (ℕ × ℚ) := A.rows.getD i []

/-- The stored value at `(i,j)` (0 when absent; the first stored entry, as
the `smap` linear search takes). -/
def CSR.val (A : CSR) (i j : ℕ) : ℚ := ((A.row i).lookup j).getD 0

/-- The stored column indices of row `i`. -/
def rowCols (A : CSR) (i : ℕ) : List ℕ := (A.row i).map Prod.fst

/-- `dij = max(max(0,-kij),-kji)` of entry `(i,j)`. -/
def dij (A : CSR) (i j : ℕ) : ℚ :=
  max (max 0 (-(A.val i j))) (-(A.val j i))

/-- The off-diagonal `rowsum` of row `i`. -/
def offDiagSum (A : CSR) (i : ℕ) : ℚ :=
  (((A.row i).filter (fun e => decide (e.1 ≠ i))).map (fun e => dij A i e.1)).sum

/-- One iteration of the inner entry loop: compute `dij`, store it at `(i,j)`
and at the symmetric position `(j,i)` (`Dp[smap[k]]`), and accumulate the
off-diagonal row sum. -/
def upwindStep (A : CSR) (i : ℕ) (acc : (ℕ × ℕ → ℚ) × ℚ) (e : ℕ × ℚ) :
    (ℕ × ℕ → ℚ) × ℚ :=
  let j := e.1
  let kij := e.2
  let kji := A.val j i
  let d := max (max 0 (-kij)) (-kji)
  (Function.update (Function.update acc.1 (i, j) d) (j, i) d,
   if i ≠ j then acc.2 + d else acc.2)

/-- One iteration of the outer row loop: run the entry loop of row `i`, then
write `D(i,i) = -rowsum`. -/
def upwindRow (A : CSR) (st : ℕ × ℕ → ℚ) (i : ℕ) : ℕ × ℕ → ℚ :=
  let p := (A.row i).foldl (upwindStep A i) (st, 0)
  Function.update p.1 (i, i) (-p.2)

/-- Embedding of `ComputeDiscreteUpwindingMatrix`: run the row loop over all
rows, starting from the (irrelevant) previous contents `st0` of `D`. -/
def ComputeDiscreteUpwindingMatrix (A : CSR) (st0 : ℕ × ℕ → ℚ) :
    ℕ × ℕ → ℚ :=
  (List.range A.n).foldl (upwindRow A) st0

theorem dij_symm (A : CSR) (i j : ℕ) : dij A i j = dij A j i := by
  unfold dij
  rw [max_assoc, max_assoc, max_comm (-(A.val i j))]

theorem lookup_nodup (l : List (ℕ × ℚ)) (hno : (l.map Prod.fst).Nodup) :
    ∀ e ∈ l, l.lookup e.1 = some e.2 := by
  induction l with
  | nil => intro e he; exact absurd he (List.not_mem_nil e)
  | cons p ps ih =>
    obtain ⟨k, v⟩ := p
    have hk : k ∉ ps.map Prod.fst := (List.nodup_cons.mp (by simpa using hno)).1
    have hno2 : (ps.map Prod.fst).Nodup := (List.nodup_cons.mp (by simpa using hno)).2
    rintro ⟨ek, ev⟩ he
    rcases List.mem_cons.mp he with hh | he2
    · obtain ⟨rfl, rfl⟩ := Prod.mk.injEq .. ▸ hh
      simp [List.lookup]
    · have hne : ek ≠ k := by
        intro hc
        exact hk (List.mem_map.mpr ⟨(ek, ev), he2, hc⟩)
      have hbeq : (ek == k) = false := by
        simpa using hne
      simp only [List.lookup, hbeq]
      exact ih hno2 (ek, ev) he2

theorem val_of_mem (A : CSR) (i : ℕ) (hno : (rowCols A i).Nodup) :
    ∀ e ∈ A.row i, A.val i e.1 = e.2 := by
  intro e he
  unfold CSR.val
  rw [lookup_nodup (A.row i) hno e he]
  rfl

theorem upwindFold_spec (A : CSR) (i : ℕ) (ents : List (ℕ × ℚ)) :
    ∀ (st : ℕ × ℕ → ℚ) (acc : ℚ),
    (ents.map Prod.fst).Nodup →
    (∀ e ∈ ents, A.val i e.1 = e.2) →
    (∀ a b : ℕ,
      (ents.foldl (upwindStep A i) (st, acc)).1 (a, b) =
        if a = i ∧ b ∈ ents.map Prod.fst then dij A i b
        else if b = i ∧ a ∈ ents.map Prod.fst then dij A i a
        else st (a, b)) ∧
    (ents.foldl (upwindStep A i) (st, acc)).2 =
      acc + ((ents.filter (fun e => decide (e.1 ≠ i))).map
        (fun e => dij A i e.1)).sum := by
  induction ents with
  | nil =>
    intro st acc hno hval
    refine ⟨fun a b => by simp, by simp⟩
  | cons e rest ih =>
    intro st acc hno hval
    obtain ⟨j0, v0⟩ := e
    have hj0 : j0 ∉ rest.map Prod.fst := (List.nodup_cons.mp (by simpa using hno)).1
    have hno2 : (rest.map Prod.fst).Nodup := (List.nodup_cons.mp (by simpa using hno)).2
    have hval2 : ∀ e ∈ rest, A.val i e.1 = e.2 :=
      fun e he => hval e (List.mem_cons_of_mem _ he)
    have hv0 : A.val i j0 = v0 := hval (j0, v0) (List.mem_cons_self _ _)
    have hd0 : max (max 0 (-v0)) (-(A.val j0 i)) = dij A i j0 := by
      rw [dij, hv0]
    simp only [List.foldl_cons]
    obtain ⟨ihf, ihs⟩ := ih (upwindStep A i (st, acc) (j0, v0)).1
      (upwindStep A i (st, acc) (j0, v0)).2 hno2 hval2
    constructor
    · intro a b
      rw [ihf a b]
      simp only [upwindStep, Function.update_apply, Prod.mk.injEq,
        List.map_cons, List.mem_cons]
      by_cases hai : a = i
      · by_cases hbm : b ∈ rest.map Prod.fst
        · rw [if_pos ⟨hai, hbm⟩, if_pos ⟨hai, Or.inr hbm⟩]
        · rw [if_neg (fun hc => hbm hc.2)]
          by_cases hbj : b = j0
          · by_cases hbi : b = i
            · have hij0 : i = j0 := by rw [← hbi, hbj]
              have hnotm : ¬(b = i ∧ a ∈ rest.map Prod.fst) := by
                rintro ⟨-, hmem⟩
                rw [hai, hij0] at hmem
                exact hj0 hmem
              rw [if_neg hnotm, if_pos ⟨hai.trans hij0, hbi⟩,
                  if_pos ⟨hai, Or.inl hbj⟩, hd0, hbj]
            · rw [if_neg (fun hc => hbi hc.1),
                  if_neg (fun hc : a = j0 ∧ b = i => hbi hc.2),
                  if_pos ⟨hai, hbj⟩, if_pos ⟨hai, Or.inl hbj⟩, hd0, hbj]
          · rw [if_neg (fun hc => hbm (by rw [hc.1, ← hai]; exact hc.2)),
                if_neg (fun hc : a = j0 ∧ b = i =>
                  hbj (hc.2.trans (hai.symm.trans hc.1))),
                if_neg (fun hc : a = i ∧ b = j0 => hbj hc.2),
                if_neg (fun hc => hc.2.elim hbj hbm),
                if_neg (fun hc => hc.2.elim
                  (fun h => hbj (hc.1.trans (hai.symm.trans h)))
                  (fun h => hbm (by rw [hc.1, ← hai]; exact h)))]
      · rw [if_neg (fun hc => hai hc.1)]
        by_cases hbi : b = i
        · by_cases ham : a ∈ rest.map Prod.fst
          · rw [if_pos ⟨hbi, ham⟩, if_neg (fun hc => hai hc.1),
                if_pos ⟨hbi, Or.inr ham⟩]
          · rw [if_neg (fun hc => ham hc.2)]
            by_cases haj : a = j0
            · rw [if_pos ⟨haj, hbi⟩, if_neg (fun hc => hai hc.1),
                  if_pos ⟨hbi, Or.inl haj⟩, hd0, haj]
            · rw [if_neg (fun hc : a = j0 ∧ b = i => haj hc.1),
                  if_neg (fun hc : a = i ∧ b = j0 => hai hc.1),
                  if_neg (fun hc => hai hc.1),
                  if_neg (fun hc => hc.2.elim haj ham)]
        · rw [if_neg (fun hc => hbi hc.1),
              if_neg (fun hc : a = j0 ∧ b = i => hbi hc.2),
              if_neg (fun hc : a = i ∧ b = j0 => hai hc.1),
              if_neg (fun hc => hai hc.1),
              if_neg (fun hc => hbi hc.1)]
    · rw [ihs]
      simp only [upwindStep, List.filter_cons]
      by_cases hij : i = j0
      · have : (decide (j0 ≠ i)) = false := by simp [hij.symm]
        simp [this, hij]
      · have : (decide (j0 ≠ i)) = true := by simp [Ne.symm hij]
        simp [this, hij, hd0]
        ring

theorem upwindRow_spec (A : CSR) (i : ℕ) (st : ℕ × ℕ → ℚ)
    (hno : (rowCols A i).Nodup) :
    ∀ a b, upwindRow A st i (a, b) =
      if a = i ∧ b = i then -offDiagSum A i
      else if a = i ∧ b ∈ rowCols A i then dij A i b
      else if b = i ∧ a ∈ rowCols A i then dij A i a
      else st (a, b) := by
  intro a b
  obtain ⟨hf, hs⟩ := upwindFold_spec A i (A.row i) st 0 hno (val_of_mem A i hno)
  unfold upwindRow
  rw [Function.update_apply]
  by_cases hd : (a, b) = (i, i)
  · obtain ⟨rfl, rfl⟩ := Prod.mk.injEq .. ▸ hd
    rw [if_pos rfl, if_pos ⟨rfl, rfl⟩, hs]
    simp [offDiagSum]
  · rw [if_neg hd, hf a b]
    have hne : ¬(a = i ∧ b = i) := fun hc => hd (by rw [hc.1, hc.2])
    rw [if_neg hne]
    rfl

/-- The contents of `D` after the rows `0..m-1` have been processed. -/
def dstage (A : CSR) (st0 : ℕ × ℕ → ℚ) (m : ℕ) (a b : ℕ) : ℚ :=
  if a = b ∧ a < m then -offDiagSum A a
  else if a ≠ b ∧ (a < m ∧ b ∈ rowCols A a ∨ b < m ∧ a ∈ rowCols A b) then
    dij A a b
  else st0 (a, b)

theorem upwind_foldl_spec (A : CSR) (st0 : ℕ × ℕ → ℚ)
    (hnodup : ∀ i, (rowCols A i).Nodup) :
    ∀ m a b, ((List.range m).foldl (upwindRow A) st0) (a, b) =
      dstage A st0 m a b := by
  intro m
  induction m with
  | zero =>
    intro a b
    simp [dstage]
  | succ m ih =>
    intro a b
    rw [List.range_succ, List.foldl_append, List.foldl_cons, List.foldl_nil]
    have hrow := upwindRow_spec A m ((List.range m).foldl (upwindRow A) st0)
      (hnodup m) a b
    rw [hrow]
    by_cases h1 : a = m ∧ b = m
    · rw [if_pos h1]
      unfold dstage
      rw [if_pos ⟨h1.1.trans h1.2.symm, by rw [h1.1]; exact Nat.lt_succ_self m⟩,
          h1.1]
    · rw [if_neg h1]
      by_cases h2 : a = m ∧ b ∈ rowCols A m
      · rw [if_pos h2]
        have hab : a ≠ b := fun hc => h1 ⟨h2.1, by rw [← hc]; exact h2.1⟩
        unfold dstage
        rw [if_neg (fun hc => hab hc.1),
            if_pos ⟨hab, Or.inl ⟨by rw [h2.1]; exact Nat.lt_succ_self m,
              by rw [h2.1]; exact h2.2⟩⟩, h2.1]
      · rw [if_neg h2]
        by_cases h3 : b = m ∧ a ∈ rowCols A m
        · rw [if_pos h3]
          have hab : a ≠ b := fun hc =>
            h2 ⟨hc.trans h3.1, by rw [← hc]; exact h3.2⟩
          unfold dstage
          rw [if_neg (fun hc => hab hc.1),
              if_pos ⟨hab, Or.inr ⟨by rw [h3.1]; exact Nat.lt_succ_self m,
                by rw [h3.1]; exact h3.2⟩⟩, h3.1, dij_symm A a m]
        · rw [if_neg h3, ih a b]
          unfold dstage
          by_cases c1 : a = b ∧ a < m
          · rw [if_pos c1, if_pos ⟨c1.1, Nat.lt_succ_of_lt c1.2⟩]
          · rw [if_neg c1]
            have c1' : ¬(a = b ∧ a < m + 1) := by
              rintro ⟨rfl, hlt⟩
              rcases Nat.lt_succ_iff_lt_or_eq.mp hlt with h | h
              · exact c1 ⟨rfl, h⟩
              · exact h1 ⟨h, h⟩
            rw [if_neg c1']
            by_cases c2 : a ≠ b ∧ (a < m ∧ b ∈ rowCols A a ∨ b < m ∧ a ∈ rowCols A b)
            · obtain ⟨hab, hor⟩ := c2
              rw [if_pos ⟨hab, hor⟩]
              rcases hor with ⟨hlt, hmem⟩ | ⟨hlt, hmem⟩
              · rw [if_pos ⟨hab, Or.inl ⟨Nat.lt_succ_of_lt hlt, hmem⟩⟩]
              · rw [if_pos ⟨hab, Or.inr ⟨Nat.lt_succ_of_lt hlt, hmem⟩⟩]
            · rw [if_neg c2]
              have c2' : ¬(a ≠ b ∧ (a < m + 1 ∧ b ∈ rowCols A a ∨
                  b < m + 1 ∧ a ∈ rowCols A b)) := by
                rintro ⟨hab, hor⟩
                rcases hor with ⟨hlt, hmem⟩ | ⟨hlt, hmem⟩
                · rcases Nat.lt_succ_iff_lt_or_eq.mp hlt with h | h
                  · exact c2 ⟨hab, Or.inl ⟨h, hmem⟩⟩
                  · exact h2 ⟨h, h ▸ hmem⟩
                · rcases Nat.lt_succ_iff_lt_or_eq.mp hlt with h | h
                  · exact c2 ⟨hab, Or.inr ⟨h, hmem⟩⟩
                  · exact h3 ⟨h, h ▸ hmem⟩
              rw [if_neg c2']

theorem rowCols_nodup_all (A : CSR) (hnodup : ∀ i < A.n, (rowCols A i).Nodup) :
    ∀ i, (rowCols A i).Nodup := by
  intro i
  by_cases h : i < A.n
  · exact hnodup i h
  · unfold rowCols CSR.row
    rw [List.getD_eq_default]
    · simp
    · simpa [CSR.n] using Nat.le_of_not_lt h

/-- C10: for a finalized, structurally symmetric sparse matrix,
`ComputeDiscreteUpwindingMatrix` sets every stored off-diagonal entry to the
symmetric nonnegative value `max(0, -K(i,j), -K(j,i))`, and every diagonal
entry to minus the sum of its row's off-diagonal entries, so every row of
`D` sums to zero. -/
theorem computeDiscreteUpwindingMatrix_spec (A : CSR) (st0 : ℕ × ℕ → ℚ)
    (hnodup : ∀ i < A.n, (rowCols A i).Nodup)
    (hsym : ∀ i < A.n, ∀ j < A.n, (j ∈ rowCols A i ↔ i ∈ rowCols A j)) :
    (∀ i j, i < A.n → j ∈ rowCols A i → i ≠ j →
      ComputeDiscreteUpwindingMatrix A st0 (i, j) =
        max (max 0 (-(A.val i j))) (-(A.val j i)) ∧
      ComputeDiscreteUpwindingMatrix A st0 (j, i) =
        ComputeDiscreteUpwindingMatrix A st0 (i, j) ∧
      0 ≤ ComputeDiscreteUpwindingMatrix A st0 (i, j)) ∧
    (∀ i, i < A.n →
      ComputeDiscreteUpwindingMatrix A st0 (i, i) =
        -(((A.row i).filter (fun e => decide (e.1 ≠ i))).map
          (fun e => ComputeDiscreteUpwindingMatrix A st0 (i, e.1))).sum ∧
      ComputeDiscreteUpwindingMatrix A st0 (i, i) +
        (((A.row i).filter (fun e => decide (e.1 ≠ i))).map
          (fun e => ComputeDiscreteUpwindingMatrix A st0 (i, e.1))).sum = 0) := by
  have hall := rowCols_nodup_all A hnodup
  have hD : ∀ a b, ComputeDiscreteUpwindingMatrix A st0 (a, b) =
      dstage A st0 A.n a b := by
    intro a b
    exact upwind_foldl_spec A st0 hall A.n a b
  have hoff : ∀ i j, i < A.n → j ∈ rowCols A i → i ≠ j →
      ComputeDiscreteUpwindingMatrix A st0 (i, j) = dij A i j := by
    intro i j hi hj hne
    rw [hD i j]
    unfold dstage
    rw [if_neg (fun hc => hne hc.1), if_pos ⟨hne, Or.inl ⟨hi, hj⟩⟩]
  constructor
  · intro i j hi hj hne
    refine ⟨hoff i j hi hj hne, ?_, ?_⟩
    · rw [hD j i, hoff i j hi hj hne]
      unfold dstage
      rw [if_neg (fun hc => hne hc.1.symm),
          if_pos ⟨fun hc => hne hc.symm, Or.inr ⟨hi, hj⟩⟩, dij_symm]
    · rw [hoff i j hi hj hne]
      unfold dij
      exact le_trans (le_max_left 0 _) (le_max_left _ _)
  · intro i hi
    have hdi : ComputeDiscreteUpwindingMatrix A st0 (i, i) = -offDiagSum A i := by
      rw [hD i i]
      unfold dstage
      rw [if_pos ⟨rfl, hi⟩]
    have hmap : (((A.row i).filter (fun e => decide (e.1 ≠ i))).map
        (fun e => ComputeDiscreteUpwindingMatrix A st0 (i, e.1))) =
        (((A.row i).filter (fun e => decide (e.1 ≠ i))).map
          (fun e => dij A i e.1)) := by
      apply List.map_congr_left
      intro e he
      have hmem : e ∈ A.row i := List.mem_of_mem_filter he
      have hne : e.1 ≠ i := by simpa using List.of_mem_filter he
      exact hoff i e.1 hi (List.mem_map.mpr ⟨e, hmem, rfl⟩) (Ne.symm hne)
    rw [hmap, hdi]
    unfold offDiagSum
    exact ⟨rfl, by ring⟩

/-- Concrete 2x2 structurally symmetric CSR matrix for the C10 witness. -/
def csrExample : CSR := ⟨[[(0, 2), (1, -3)], [(0, -1), (1, 5)]]⟩

/-- Witness for C10 at `csrExample`. -/
theorem computeDiscreteUpwindingMatrix_spec_witness :
    ((∀ i < csrExample.n, (rowCols csrExample i).Nodup) ∧
     (∀ i < csrExample.n, ∀ j < csrExample.n,
       (j ∈ rowCols csrExample i ↔ i ∈ rowCols csrExample j))) ∧
    ((∀ i j, i < csrExample.n → j ∈ rowCols csrExample i → i ≠ j →
      ComputeDiscreteUpwindingMatrix csrExample (fun _ => 0) (i, j) =
        max (max 0 (-(csrExample.val i j))) (-(csrExample.val j i)) ∧
      ComputeDiscreteUpwindingMatrix csrExample (fun _ => 0) (j, i) =
        ComputeDiscreteUpwindingMatrix csrExample (fun _ => 0) (i, j) ∧
      0 ≤ ComputeDiscreteUpwindingMatrix csrExample (fun _ => 0) (i, j)) ∧
    (∀ i, i < csrExample.n →
      ComputeDiscreteUpwindingMatrix csrExample (fun _ => 0) (i, i) =
        -(((csrExample.row i).filter (fun e => decide (e.1 ≠ i))).map
          (fun e => ComputeDiscreteUpwindingMatrix csrExample (fun _ => 0) (i, e.1))).sum ∧
      ComputeDiscreteUpwindingMatrix csrExample (fun _ => 0) (i, i) +
        (((csrExample.row i).filter (fun e => decide (e.1 ≠ i))).map
          (fun e => ComputeDiscreteUpwindingMatrix csrExample (fun _ => 0) (i, e.1))).sum = 0)) :=
  ⟨⟨by decide, by decide⟩,
   computeDiscreteUpwindingMatrix_spec csrExample (fun _ => 0)
     (by decide) (by decide)⟩
